/-
Verification of the s390x DASD support module (src/s390x/dasd.rs):
partition planning (`partition_ranges`), the streaming copy loop
(`image_copy_s390x`), and the disk-formatting helpers (`make_partitions`,
`low_level_format`, `is_formatted`).

The embedding is shallow: the pure arithmetic of the planner is translated
directly; external effects (GPT parsing, device geometry queries, child
processes, file reads) are collaborators per the design, so their results
enter as parameters and the sequence of external tool invocations is
returned as an explicit trace.
-/
import Mathlib

namespace Dasd

/-- A GPT partition entry, as consumed from the collaborator table:
starting/ending logical block addresses (inclusive) and the used flag.
Mirrors the fields of `gptman::GPTPartitionEntry` that `partition_ranges`
reads (`starting_lba`, `ending_lba`, `is_used()`). -/
structure PartEntry where
  starting_lba : Nat
  ending_lba : Nat
  used : Bool
deriving DecidableEq, Repr

/-- `struct Range { in_offset, out_offset, length }` from dasd.rs, all in
bytes (u64 in the source; Nat here, no claim exercises overflow). -/
structure Range where
  in_offset : Nat
  out_offset : Nat
  length : Nat
deriving DecidableEq, Repr

/-- `blocks = pt.ending_lba - pt.starting_lba + 1` (dasd.rs line 121). -/
def blocks (pt : PartEntry) : Nat :=
  pt.ending_lba - pt.starting_lba + 1

/-- Number of tracks a partition occupies:
`(blocks + blocks_per_track - 1) / blocks_per_track` (dasd.rs line 122). -/
def tracks (bpt : Nat) (pt : PartEntry) : Nat :=
  (blocks pt + bpt - 1) / bpt

/-- The `Range` pushed for one partition entry at running track `t`
(dasd.rs lines 124-128). -/
def mkRange (bpb bpt t : Nat) (pt : PartEntry) : Range :=
  { in_offset := pt.starting_lba * bpb
    out_offset := t * bpt * bpb
    length := blocks pt * bpb }

/-- The loop of `partition_ranges` (dasd.rs lines 120-136), range half:
walks the used entries with the running `start_track`, pushing one `Range`
each and advancing `start_track` to `end_track + 1`. -/
def planRanges (bpb bpt : Nat) : List PartEntry → Nat → List Range
  | [], _ => []
  | pt :: rest, t =>
    mkRange bpb bpt t pt ::
      planRanges bpb bpt rest (t + tracks bpt pt - 1 + 1)

/-- The loop of `partition_ranges` (dasd.rs lines 120-136), descriptor half:
the last used entry gets the `last` sentinel instead of its end track
(`i == last_partition` in the source is exactly "last element of the used
list"). -/
def planDescs (bpt : Nat) : List PartEntry → Nat → List String
  | [], _ => []
  | pt :: rest, t =>
    match rest with
    | [] => ["[" ++ toString t ++ ", last, native]"]
    | _ :: _ =>
      ("[" ++ toString t ++ ", " ++ toString (t + tracks bpt pt - 1) ++ ", native]") ::
        planDescs bpt rest (t + tracks bpt pt - 1 + 1)

/-- `ranges.sort_unstable_by_key(|r| r.in_offset)` (dasd.rs line 138),
modelled as insertion sort by `in_offset` (anything agreeing with some
comparison sort by that key is a faithful model of an unstable sort). -/
def sortRanges (rs : List Range) : List Range :=
  rs.insertionSort (fun a b => a.in_offset ≤ b.in_offset)

inductive PlanError
  | noPartitions
deriving DecidableEq, Repr

/-- `partition_ranges` (dasd.rs lines 105-140). The GPT parse and the two
geometry queries are collaborators: the used-entry list arrives as
`entries` (in on-disk order) and the positive geometry as `bpb` (bytes per
block) and `bpt` (blocks per track). `start_track` starts at 2 (the first
2 tracks of the ECKD DASD are reserved); failure when no entry is used
models the `chain_err` on `entries().last()`. -/
def partition_ranges (bpb bpt : Nat) (entries : List PartEntry) :
    Except PlanError (List Range × List String) :=
  let used := entries.filter (fun pt => pt.used)
  match used with
  | [] => .error .noPartitions
  | u => .ok (sortRanges (planRanges bpb bpt u 2), planDescs bpt u 2)

/-- Cumulative start track of the `i`-th used entry: 2 plus the tracks
consumed by all earlier entries. Closed form of the running `start_track`. -/
def trackStart (bpt : Nat) (u : List PartEntry) (i : Nat) : Nat :=
  2 + ((u.take i).map (tracks bpt)).sum

/-! ## Stream copy (`image_copy_s390x`, dasd.rs lines 69-101)

The source is a forward-only stream: modelled by its byte contents
`data : Nat → UInt8` in absolute image addresses together with its total
length `len`; the read position is the copy loop's `cursor`.  The
destination is a seekable device: a byte map `Nat → UInt8`.  Since writes
persist on the device even when a later step fails, the model always
returns the destination contents and the final cursor, plus the error if
any. -/

/-- Destination device contents, byte-addressed. -/
def Dest : Type := Nat → UInt8

inductive CopyError
  | planConsistency
  | truncatedStream
deriving DecidableEq, Repr

/-- Destination after `copy_exactly_n(source, dest, n)` with the source at
absolute position `r.in_offset` and the destination seeked to
`r.out_offset`: bytes `[out_offset, out_offset + n)` now hold source bytes
`[in_offset, in_offset + n)`. -/
def writeRun (data : Nat → UInt8) (r : Range) (n : Nat) (d : Dest) : Dest :=
  fun a => if r.out_offset ≤ a ∧ a < r.out_offset + n
    then data (r.in_offset + (a - r.out_offset)) else d a

/-- The per-range loop of `image_copy_s390x` (dasd.rs lines 77-95):
reject a range behind the cursor (`bail!`, line 78); sink the gap up to
`in_offset` (line 86; short iff the stream ends before `in_offset`); seek
and copy `length` bytes (line 92; on a short read the available
`len - in_offset` bytes were still written before the error). -/
def copyRanges (len : Nat) (data : Nat → UInt8) :
    List Range → Nat → Dest → Dest × Nat × Option CopyError
  | [], cursor, d => (d, cursor, none)
  | r :: rest, cursor, d =>
    if r.in_offset < cursor then
      (d, cursor, some .planConsistency)
    else if len < r.in_offset then
      (d, len, some .truncatedStream)
    else if len < r.in_offset + r.length then
      (writeRun data r (len - r.in_offset) d, len, some .truncatedStream)
    else
      copyRanges len data rest (r.in_offset + r.length) (writeRun data r r.length d)

/-- `image_copy_s390x`, streaming part (dasd.rs lines 69-101): cursor
starts at 1 MiB (the first MiB holds no partition data), the ranges are
copied in order, then the remainder of the stream is drained to exhaustion
(`copy(source, sink)`, line 98) and the destination flushed. -/
def image_copy_s390x (len : Nat) (data : Nat → UInt8) (ranges : List Range)
    (d : Dest) : Dest × Nat × Option CopyError :=
  match copyRanges len data ranges (1024 * 1024) d with
  | (d1, cursor, none) => (d1, cursor + (len - cursor), none)
  | out => out

/-! ## Formatter (`make_partitions`, `low_level_format`, dasd.rs 165-274)

These functions drive external tools (`fdasd`, `dasdfmt`) and read sysfs.
The embedding records the sequence of tool invocations as a trace and
takes each tool's success/failure as an oracle parameter. -/

/-- One external invocation performed by the formatter. -/
inductive ToolCall
  /-- `try_format`: `fdasd -s --config /dev/stdin`, fed `config` on stdin. -/
  | tryFormat (config : String)
  /-- `default_format`: `fdasd -a -s`. -/
  | defaultFormat
  /-- `dasdfmt --blocksize 4096 --disk_layout cdl --mode full -y -p`. -/
  | dasdfmt
deriving DecidableEq, Repr

inductive FormatError
  | configLimit
  | toolFailure
  | checkFailed
deriving DecidableEq, Repr

/-- `make_partitions` (dasd.rs lines 218-230).  `tf1`, `df`, `tf2` are the
success of the first `try_format`, of `default_format`, and of the retried
`try_format`, in the order the code could reach them.  Returns the trace
of tool invocations and the error, if any. -/
def make_partitions (partitions : List String) (tf1 df tf2 : Bool) :
    List ToolCall × Option FormatError :=
  if partitions.length > 3 then
    ([], some .configLimit)
  else
    let config := String.intercalate "\n" partitions ++ "\n"
    if tf1 then
      ([.tryFormat config], none)
    else if df then
      if tf2 then
        ([.tryFormat config, .defaultFormat, .tryFormat config], none)
      else
        ([.tryFormat config, .defaultFormat, .tryFormat config], some .toolFailure)
    else
      ([.tryFormat config, .defaultFormat], some .toolFailure)

/-- Substring occurrence on character lists: `pat` occurs in `l` at some
position. Models Rust `str::contains` for a literal pattern. -/
def hasSubstring (pat : List Char) : List Char → Bool
  | [] => pat.isEmpty
  | c :: rest => pat.isPrefixOf (c :: rest) || hasSubstring pat rest

/-- `is_formatted` (dasd.rs lines 169-174): given the outcome of reading
`/sys/bus/ccw/devices/<id>/status` (an error when `bus_id` or the read
fails), the device is formatted iff the contents do not contain
`"unformatted"`. -/
def is_formatted (statusRead : Except Unit String) : Except Unit Bool :=
  statusRead.map (fun contents => !hasSubstring "unformatted".data contents.data)

/-- `low_level_format` (dasd.rs lines 191-211): skip when `is_formatted`
reports true; propagate a failed check without running anything; otherwise
run `dasdfmt` (success given by the oracle `fmtOk`) and settle. -/
def low_level_format (statusRead : Except Unit String) (fmtOk : Bool) :
    List ToolCall × Option FormatError :=
  match is_formatted statusRead with
  | .error _ => ([], some .checkFailed)
  | .ok true => ([], none)
  | .ok false =>
    if fmtOk then ([.dasdfmt], none) else ([.dasdfmt], some .toolFailure)

/-- Two ranges do not overlap in input-address space. -/
def Range.disjointIn (r1 r2 : Range) : Prop :=
  r1.in_offset + r1.length ≤ r2.in_offset ∨ r2.in_offset + r2.length ≤ r1.in_offset

/-- Two ranges do not overlap in output-address space. -/
def Range.disjointOut (r1 r2 : Range) : Prop :=
  r1.out_offset + r1.length ≤ r2.out_offset ∨ r2.out_offset + r2.length ≤ r1.out_offset

instance (r1 r2 : Range) : Decidable (Range.disjointIn r1 r2) := by
  unfold Range.disjointIn; infer_instance

instance (r1 r2 : Range) : Decidable (Range.disjointOut r1 r2) := by
  unfold Range.disjointOut; infer_instance

/-! ## Planner lemmas -/

theorem disjointIn_symm : Symmetric Range.disjointIn :=
  fun _ _ h => h.symm

theorem disjointOut_symm : Symmetric Range.disjointOut :=
  fun _ _ h => h.symm

theorem blocks_pos (pt : PartEntry) : 1 ≤ blocks pt := Nat.le_add_left 1 _

theorem tracks_pos (bpt : Nat) (hbpt : 1 ≤ bpt) (pt : PartEntry) : 1 ≤ tracks bpt pt := by
  have h1 := blocks_pos pt
  have : bpt ≤ blocks pt + bpt - 1 := by omega
  exact (Nat.one_le_div_iff hbpt).mpr this

/-- Ceiling property of the track count: `blocks ≤ tracks * bpt`. -/
theorem blocks_le_tracks_mul (bpt : Nat) (hbpt : 1 ≤ bpt) (pt : PartEntry) :
    blocks pt ≤ tracks bpt pt * bpt := by
  have hmod := Nat.div_add_mod (blocks pt + bpt - 1) bpt
  have hlt : (blocks pt + bpt - 1) % bpt < bpt := Nat.mod_lt _ hbpt
  have h1 := blocks_pos pt
  unfold tracks
  rw [Nat.mul_comm]
  omega

theorem planDescs_single (bpt : Nat) (pt : PartEntry) (t : Nat) :
    planDescs bpt [pt] t = ["[" ++ toString t ++ ", last, native]"] := rfl

theorem planDescs_cons₂ (bpt : Nat) (pt0 q : PartEntry) (rest : List PartEntry) (t : Nat) :
    planDescs bpt (pt0 :: q :: rest) t =
      ("[" ++ toString t ++ ", " ++ toString (t + tracks bpt pt0 - 1) ++ ", native]") ::
        planDescs bpt (q :: rest) (t + tracks bpt pt0 - 1 + 1) := rfl

theorem planRanges_length (bpb bpt : Nat) :
    ∀ (u : List PartEntry) (t : Nat), (planRanges bpb bpt u t).length = u.length
  | [], _ => rfl
  | _ :: rest, t => by
    simp [planRanges, planRanges_length bpb bpt rest]

theorem planDescs_length (bpt : Nat) :
    ∀ (u : List PartEntry) (t : Nat), (planDescs bpt u t).length = u.length
  | [], _ => rfl
  | [_], _ => rfl
  | pt0 :: q :: rest, t => by
    rw [planDescs_cons₂, List.length_cons, planDescs_length bpt (q :: rest)]
    rfl

theorem planRanges_getElem? (bpb bpt : Nat) :
    ∀ (u : List PartEntry) (t : Nat), 1 ≤ t → ∀ (i : Nat) (pt : PartEntry),
      u[i]? = some pt →
      (planRanges bpb bpt u t)[i]? =
        some (mkRange bpb bpt (t + ((u.take i).map (tracks bpt)).sum) pt)
  | [], _, _, i, pt, h => by simp at h
  | pt0 :: rest, t, ht, 0, pt, h => by
    simp at h
    subst h
    simp [planRanges]
  | pt0 :: rest, t, ht, i + 1, pt, h => by
    simp only [List.getElem?_cons_succ] at h
    have hstep : t + tracks bpt pt0 - 1 + 1 = t + tracks bpt pt0 := by omega
    have ht' : 1 ≤ t + tracks bpt pt0 := by omega
    have ih := planRanges_getElem? bpb bpt rest (t + tracks bpt pt0) ht' i pt h
    simp only [planRanges, hstep, List.getElem?_cons_succ, ih, List.take_succ_cons,
      List.map_cons, List.sum_cons]
    congr 2
    omega

theorem planDescs_getElem? (bpt : Nat) :
    ∀ (u : List PartEntry) (t : Nat), 1 ≤ t → ∀ (i : Nat) (pt : PartEntry),
      u[i]? = some pt →
      (planDescs bpt u t)[i]? =
        some (
          if i + 1 = u.length
          then "[" ++ toString (t + ((u.take i).map (tracks bpt)).sum) ++ ", last, native]"
          else "[" ++ toString (t + ((u.take i).map (tracks bpt)).sum) ++ ", " ++
            toString (t + ((u.take i).map (tracks bpt)).sum + tracks bpt pt - 1) ++
            ", native]")
  | [], _, _, i, pt, h => by simp at h
  | [pt0], t, ht, 0, pt, h => by
    simp at h
    subst h
    simp [planDescs]
  | [pt0], t, ht, i + 1, pt, h => by
    simp at h
  | pt0 :: q :: rest, t, ht, 0, pt, h => by
    simp at h
    subst h
    simp [planDescs_cons₂]
  | pt0 :: q :: rest, t, ht, i + 1, pt, h => by
    simp only [List.getElem?_cons_succ] at h
    have hstep : t + tracks bpt pt0 - 1 + 1 = t + tracks bpt pt0 := by omega
    have ht' : 1 ≤ t + tracks bpt pt0 := by omega
    have ih := planDescs_getElem? bpt (q :: rest) (t + tracks bpt pt0) ht' i pt h
    rw [planDescs_cons₂, hstep, List.getElem?_cons_succ, ih]
    simp only [List.length_cons, List.take_succ_cons, List.map_cons, List.sum_cons]
    have harith : t + tracks bpt pt0 + ((List.take i (q :: rest)).map (tracks bpt)).sum =
        t + (tracks bpt pt0 + ((List.take i (q :: rest)).map (tracks bpt)).sum) := by omega
    rw [← harith]
    have hcond : (i + 1 = rest.length + 1) = (i + 1 + 1 = rest.length + 1 + 1) :=
      propext ⟨fun h2 => by omega, fun h2 => by omega⟩
    simp only [hcond]

/-- Every produced range comes from an entry of `u`, placed at a start
track at least `t`. -/
theorem planRanges_mem (bpb bpt : Nat) :
    ∀ (u : List PartEntry) (t : Nat) (r : Range), r ∈ planRanges bpb bpt u t →
      ∃ pt ∈ u, ∃ t', t ≤ t' ∧ r = mkRange bpb bpt t' pt
  | [], _, r, h => by simp [planRanges] at h
  | pt0 :: rest, t, r, h => by
    simp only [planRanges, List.mem_cons] at h
    rcases h with h | h
    · exact ⟨pt0, List.mem_cons_self _ _, t, Nat.le_refl t, h⟩
    · obtain ⟨pt, hmem, t', ht', heq⟩ := planRanges_mem bpb bpt rest _ r h
      exact ⟨pt, List.mem_cons_of_mem _ hmem, t', by omega, heq⟩

/-- In-offsets of produced ranges follow the entry starting blocks. -/
theorem planRanges_sorted (bpb bpt : Nat) :
    ∀ (u : List PartEntry) (t : Nat),
      u.Pairwise (fun a b => a.starting_lba ≤ b.starting_lba) →
      (planRanges bpb bpt u t).Pairwise (fun a b : Range => a.in_offset ≤ b.in_offset)
  | [], _, _ => List.Pairwise.nil
  | pt0 :: rest, t, h => by
    rw [List.pairwise_cons] at h
    obtain ⟨hhead, htail⟩ := h
    simp only [planRanges]
    rw [List.pairwise_cons]
    refine ⟨fun r' hr' => ?_, planRanges_sorted bpb bpt rest _ htail⟩
    obtain ⟨pt, hpt, t', _, heq⟩ := planRanges_mem bpb bpt rest _ r' hr'
    subst heq
    exact Nat.mul_le_mul_right bpb (hhead pt hpt)

/-- Output windows of the produced ranges are disjoint and strictly
increasing: each partition's window ends no later than the start of the
track band of the next one. -/
theorem planRanges_pairwise_out (bpb bpt : Nat) (hbpb : 1 ≤ bpb) (hbpt : 1 ≤ bpt) :
    ∀ (u : List PartEntry) (t : Nat),
      (planRanges bpb bpt u t).Pairwise
        (fun a b : Range => a.out_offset + a.length ≤ b.out_offset ∧
          a.out_offset < b.out_offset)
  | [], _ => List.Pairwise.nil
  | pt0 :: rest, t => by
    simp only [planRanges]
    rw [List.pairwise_cons]
    refine ⟨fun r' hr' => ?_, planRanges_pairwise_out bpb bpt hbpb hbpt rest _⟩
    obtain ⟨pt, _, t', ht', heq⟩ := planRanges_mem bpb bpt rest _ r' hr'
    subst heq
    have htr : 1 ≤ tracks bpt pt0 := tracks_pos bpt hbpt pt0
    have hstep : t + tracks bpt pt0 - 1 + 1 = t + tracks bpt pt0 := by omega
    rw [hstep] at ht'
    have hblocks := blocks_le_tracks_mul bpt hbpt pt0
    have h1 : blocks pt0 * bpb ≤ tracks bpt pt0 * bpt * bpb :=
      Nat.mul_le_mul_right bpb hblocks
    have h2 : (t + tracks bpt pt0) * bpt * bpb ≤ t' * bpt * bpb :=
      Nat.mul_le_mul_right bpb (Nat.mul_le_mul_right bpt ht')
    constructor
    · show t * bpt * bpb + blocks pt0 * bpb ≤ t' * bpt * bpb
      calc t * bpt * bpb + blocks pt0 * bpb
          ≤ t * bpt * bpb + tracks bpt pt0 * bpt * bpb := Nat.add_le_add_left h1 _
        _ = (t + tracks bpt pt0) * bpt * bpb := by ring
        _ ≤ t' * bpt * bpb := h2
    · show t * bpt * bpb < t' * bpt * bpb
      have hb1 : 1 ≤ blocks pt0 * bpb := Nat.mul_le_mul (blocks_pos pt0) hbpb
      calc t * bpt * bpb < t * bpt * bpb + blocks pt0 * bpb := by omega
        _ ≤ t' * bpt * bpb := by
          calc t * bpt * bpb + blocks pt0 * bpb
              ≤ t * bpt * bpb + tracks bpt pt0 * bpt * bpb := Nat.add_le_add_left h1 _
            _ = (t + tracks bpt pt0) * bpt * bpb := by ring
            _ ≤ t' * bpt * bpb := h2

/-- Every produced output offset is track-aligned. -/
theorem planRanges_aligned (bpb bpt : Nat) (u : List PartEntry) (t : Nat) :
    ∀ r ∈ planRanges bpb bpt u t, r.out_offset % (bpt * bpb) = 0 := by
  intro r hr
  obtain ⟨pt, _, t', _, heq⟩ := planRanges_mem bpb bpt u t r hr
  subst heq
  show t' * bpt * bpb % (bpt * bpb) = 0
  rw [Nat.mul_assoc]
  exact Nat.mul_mod_left t' (bpt * bpb)

/-- Input windows of the produced ranges are disjoint when the entries
have disjoint, ordered block extents. -/
theorem planRanges_pairwise_disjointIn (bpb bpt : Nat) :
    ∀ (u : List PartEntry) (t : Nat),
      (∀ pt ∈ u, pt.starting_lba ≤ pt.ending_lba) →
      u.Pairwise (fun a b => a.ending_lba < b.starting_lba) →
      (planRanges bpb bpt u t).Pairwise Range.disjointIn
  | [], _, _, _ => List.Pairwise.nil
  | pt0 :: rest, t, hse, hord => by
    rw [List.pairwise_cons] at hord
    obtain ⟨hhead, htail⟩ := hord
    simp only [planRanges]
    rw [List.pairwise_cons]
    refine ⟨fun r' hr' => ?_, planRanges_pairwise_disjointIn bpb bpt rest _
      (fun pt hpt => hse pt (List.mem_cons_of_mem _ hpt)) htail⟩
    obtain ⟨pt, hpt, t', _, heq⟩ := planRanges_mem bpb bpt rest _ r' hr'
    subst heq
    left
    show pt0.starting_lba * bpb + blocks pt0 * bpb ≤ pt.starting_lba * bpb
    have hse0 := hse pt0 (List.mem_cons_self _ _)
    have hlt := hhead pt hpt
    calc pt0.starting_lba * bpb + blocks pt0 * bpb
        = (pt0.starting_lba + blocks pt0) * bpb := by ring
      _ ≤ pt.starting_lba * bpb := by
          apply Nat.mul_le_mul_right
          unfold blocks
          omega

/-- Unfolding of `partition_ranges` when at least one entry is used. -/
theorem partition_ranges_eq (bpb bpt : Nat) (entries : List PartEntry)
    (h : entries.filter (fun pt => pt.used) ≠ []) :
    partition_ranges bpb bpt entries =
      .ok (sortRanges (planRanges bpb bpt (entries.filter (fun pt => pt.used)) 2),
        planDescs bpt (entries.filter (fun pt => pt.used)) 2) := by
  unfold partition_ranges
  cases hu : entries.filter (fun pt => pt.used) with
  | nil => exact absurd hu h
  | cons a l => simp only [hu]

theorem sortRanges_of_sorted {rs : List Range}
    (h : rs.Pairwise (fun a b : Range => a.in_offset ≤ b.in_offset)) :
    sortRanges rs = rs :=
  List.Sorted.insertionSort_eq h

theorem sortRanges_pairwise {R : Range → Range → Prop} (hs : Symmetric R) {rs : List Range}
    (h : rs.Pairwise R) : (sortRanges rs).Pairwise R :=
  ((List.perm_insertionSort _ rs).pairwise_iff (fun hxy => hs hxy)).mpr h

theorem trackStart_succ (bpt : Nat) (u : List PartEntry) (i : Nat) (pt : PartEntry)
    (h : u[i]? = some pt) :
    trackStart bpt u (i + 1) = trackStart bpt u i + tracks bpt pt := by
  unfold trackStart
  rw [List.take_succ, h]
  simp
  omega

/-! ## Copy-loop lemmas -/

theorem copyRanges_cons (len : Nat) (data : Nat → UInt8) (r : Range) (rest : List Range)
    (c : Nat) (d : Dest) :
    copyRanges len data (r :: rest) c d =
      if r.in_offset < c then (d, c, some .planConsistency)
      else if len < r.in_offset then (d, len, some .truncatedStream)
      else if len < r.in_offset + r.length then
        (writeRun data r (len - r.in_offset) d, len, some .truncatedStream)
      else copyRanges len data rest (r.in_offset + r.length) (writeRun data r r.length d) :=
  rfl

theorem writeRun_outside {data : Nat → UInt8} {r : Range} {n : Nat} {d : Dest} {a : Nat}
    (hn : n ≤ r.length) (h : a < r.out_offset ∨ r.out_offset + r.length ≤ a) :
    writeRun data r n d a = d a := by
  unfold writeRun
  have : ¬(r.out_offset ≤ a ∧ a < r.out_offset + n) := by
    rintro ⟨h1, h2⟩
    rcases h with h | h <;> omega
  simp [this]

/-- Frame property of the copy loop: a destination byte outside every
range's output window is never written, whether the loop succeeds or
fails. -/
theorem copyRanges_frame (len : Nat) (data : Nat → UInt8) :
    ∀ (rs : List Range) (c : Nat) (d : Dest) (a : Nat),
      (∀ r ∈ rs, a < r.out_offset ∨ r.out_offset + r.length ≤ a) →
      (copyRanges len data rs c d).1 a = d a
  | [], _, _, _, _ => rfl
  | r :: rest, c, d, a, h => by
    have hr := h r (List.mem_cons_self _ _)
    rw [copyRanges_cons]
    split
    · rfl
    · split
      · rfl
      · split
        · exact writeRun_outside (by omega) hr
        · rw [copyRanges_frame len data rest _ _ a
            (fun r' hr' => h r' (List.mem_cons_of_mem _ hr'))]
          exact writeRun_outside (Nat.le_refl _) hr

/-- Destructuring a successful step of the copy loop. -/
theorem copyRanges_cons_ok {len : Nat} {data : Nat → UInt8} {r : Range} {rest : List Range}
    {c : Nat} {d d' : Dest} {c' : Nat}
    (h : copyRanges len data (r :: rest) c d = (d', c', none)) :
    c ≤ r.in_offset ∧ r.in_offset + r.length ≤ len ∧
      copyRanges len data rest (r.in_offset + r.length) (writeRun data r r.length d) =
        (d', c', none) := by
  rw [copyRanges_cons] at h
  split at h
  · exact Option.noConfusion (congrArg (fun p => p.2.2) h)
  · next h1 =>
      split at h
      · exact Option.noConfusion (congrArg (fun p => p.2.2) h)
      · next h2 =>
          split at h
          · exact Option.noConfusion (congrArg (fun p => p.2.2) h)
          · next h3 => exact ⟨by omega, by omega, h⟩

/-- On success every range's data was available in the stream and the
final cursor is within the stream. -/
theorem copyRanges_ok_le (len : Nat) (data : Nat → UInt8) :
    ∀ (rs : List Range) (c : Nat) (d d' : Dest) (c' : Nat), c ≤ len →
      copyRanges len data rs c d = (d', c', none) →
      c' ≤ len ∧ ∀ r ∈ rs, r.in_offset + r.length ≤ len
  | [], c, d, d', c', hc, h => by
    have hc' : c' = c := (congrArg (fun p => p.2.1) h).symm
    subst hc'
    exact ⟨hc, by simp⟩
  | r :: rest, c, d, d', c', hc, h => by
    obtain ⟨h1, h2, h3⟩ := copyRanges_cons_ok h
    obtain ⟨hle, hall⟩ := copyRanges_ok_le len data rest _ _ _ _ h2 h3
    exact ⟨hle, by
      intro r' hr'
      rcases List.mem_cons.mp hr' with rfl | hmem
      · exact h2
      · exact hall r' hmem⟩

/-- On success each range's output window holds the source bytes of its
input window, provided the output windows are pairwise disjoint. -/
theorem copyRanges_correct (len : Nat) (data : Nat → UInt8) :
    ∀ (rs : List Range) (c : Nat) (d d' : Dest) (c' : Nat),
      rs.Pairwise Range.disjointOut →
      copyRanges len data rs c d = (d', c', none) →
      ∀ r ∈ rs, ∀ k, k < r.length →
        d' (r.out_offset + k) = data (r.in_offset + k)
  | [], _, _, _, _, _, _, r, hr, _, _ => by simp at hr
  | r0 :: rest, c, d, d', c', hpw, h, r, hr, k, hk => by
    obtain ⟨hc, hlen, htail⟩ := copyRanges_cons_ok h
    rw [List.pairwise_cons] at hpw
    obtain ⟨hhead, hpwt⟩ := hpw
    rcases List.mem_cons.mp hr with rfl | hmem
    · have hout : ∀ r' ∈ rest, r.out_offset + k < r'.out_offset ∨
          r'.out_offset + r'.length ≤ r.out_offset + k := by
        intro r' hr'
        rcases hhead r' hr' with h1 | h1
        · left; omega
        · right; omega
      have hframe := copyRanges_frame len data rest (r.in_offset + r.length)
        (writeRun data r r.length d) (r.out_offset + k) hout
      rw [htail] at hframe
      have hframe' : d' (r.out_offset + k) =
          writeRun data r r.length d (r.out_offset + k) := hframe
      rw [hframe']
      unfold writeRun
      have hcond : r.out_offset ≤ r.out_offset + k ∧
          r.out_offset + k < r.out_offset + r.length := ⟨by omega, by omega⟩
      rw [if_pos hcond, Nat.add_sub_cancel_left]
    · exact copyRanges_correct len data rest _ _ _ _ hpwt htail r hmem k hk

/-- The copy loop over `pre ++ post` runs `pre` first and continues with
`post` from the state `pre` left, unless `pre` already failed. -/
theorem copyRanges_append (len : Nat) (data : Nat → UInt8) :
    ∀ (pre post : List Range) (c : Nat) (d : Dest),
      copyRanges len data (pre ++ post) c d =
        match copyRanges len data pre c d with
        | (d1, c1, none) => copyRanges len data post c1 d1
        | out => out
  | [], post, c, d => rfl
  | r :: pre, post, c, d => by
    rw [List.cons_append, copyRanges_cons, copyRanges_cons]
    split
    · rfl
    · split
      · rfl
      · split
        · rfl
        · exact copyRanges_append len data pre post _ _

/-! ## Claim theorems: planner -/

/-- C1: for a table with at least one used entry, visited in ascending
on-disk order with `ending ≥ starting`, and positive geometry,
`partition_ranges` with the running start track initialized to 2 emits,
for the `i`-th used entry, `blocks = ending - starting + 1`, a `Range`
with `in_offset = starting·bpb`, `out_offset = startTrack·bpt·bpb`,
`length = blocks·bpb`, a descriptor end track `startTrack + ⌈blocks/bpt⌉ - 1`
(the last entry gets the `last` sentinel instead), and the next start
track one past the end track; in particular for `bpb = 512`, `bpt = 12`
and used partitions at blocks [34,99] and [100,199] the descriptors are
`"[2, 7, native]"` and `"[8, last, native]"`. -/
theorem c1_partition_plan_arithmetic
    (bpb bpt : Nat) (entries : List PartEntry)
    (hbpb : 1 ≤ bpb) (hbpt : 1 ≤ bpt)
    (hne : entries.filter (fun pt => pt.used) ≠ [])
    (hse : ∀ pt ∈ entries.filter (fun pt => pt.used), pt.starting_lba ≤ pt.ending_lba)
    (hasc : (entries.filter (fun pt => pt.used)).Pairwise
      (fun a b => a.starting_lba ≤ b.starting_lba)) :
    (∃ rs ds, partition_ranges bpb bpt entries = .ok (rs, ds) ∧
      rs.length = (entries.filter (fun pt => pt.used)).length ∧
      ds.length = (entries.filter (fun pt => pt.used)).length ∧
      (∀ i pt, (entries.filter (fun pt => pt.used))[i]? = some pt →
        rs[i]? = some
          { in_offset := pt.starting_lba * bpb
            out_offset := trackStart bpt (entries.filter (fun pt => pt.used)) i * bpt * bpb
            length := blocks pt * bpb } ∧
        ds[i]? = some (
          if i + 1 = (entries.filter (fun pt => pt.used)).length
          then "[" ++ toString (trackStart bpt (entries.filter (fun pt => pt.used)) i) ++
            ", last, native]"
          else "[" ++ toString (trackStart bpt (entries.filter (fun pt => pt.used)) i) ++
            ", " ++
            toString (trackStart bpt (entries.filter (fun pt => pt.used)) i +
              tracks bpt pt - 1) ++ ", native]") ∧
        trackStart bpt (entries.filter (fun pt => pt.used)) (i + 1) =
          trackStart bpt (entries.filter (fun pt => pt.used)) i + tracks bpt pt)) ∧
    partition_ranges 512 12 [⟨34, 99, true⟩, ⟨100, 199, true⟩] =
      .ok ([⟨17408, 12288, 33792⟩, ⟨51200, 49152, 51200⟩],
        ["[2, 7, native]", "[8, last, native]"]) := by
  refine ⟨?_, by rfl⟩
  have hequ := partition_ranges_eq bpb bpt entries hne
  have hid : sortRanges (planRanges bpb bpt (entries.filter (fun pt => pt.used)) 2) =
      planRanges bpb bpt (entries.filter (fun pt => pt.used)) 2 :=
    sortRanges_of_sorted (planRanges_sorted bpb bpt _ 2 hasc)
  refine ⟨planRanges bpb bpt (entries.filter (fun pt => pt.used)) 2,
    planDescs bpt (entries.filter (fun pt => pt.used)) 2,
    by rw [hequ, hid], planRanges_length bpb bpt _ 2, planDescs_length bpt _ 2,
    fun i pt hi => ⟨?_, ?_, trackStart_succ bpt _ i pt hi⟩⟩
  · have := planRanges_getElem? bpb bpt (entries.filter (fun pt => pt.used)) 2
      (by omega) i pt hi
    simpa [trackStart, mkRange] using this
  · have := planDescs_getElem? bpt (entries.filter (fun pt => pt.used)) 2
      (by omega) i pt hi
    simpa [trackStart] using this

/-- Witness for C1: the spec's concrete scenario (`bpb = 512`, `bpt = 12`,
used partitions [34,99] and [100,199]). -/
theorem c1_partition_plan_arithmetic_witness :
    partition_ranges 512 12 [⟨34, 99, true⟩, ⟨100, 199, true⟩] =
      .ok ([⟨17408, 12288, 33792⟩, ⟨51200, 49152, 51200⟩],
        ["[2, 7, native]", "[8, last, native]"]) :=
  (c1_partition_plan_arithmetic 512 12 [⟨34, 99, true⟩, ⟨100, 199, true⟩]
    (by decide) (by decide) (by decide) (by decide) (by decide)).2

/-- C3, counterexample: two used entries whose starting blocks are
strictly ascending but whose block extents overlap ([1,10] and [5,20])
yield ranges that overlap in input-address space, refuting the claim
that ascending starting-block order alone makes the ranges pairwise
non-overlapping. -/
theorem c3_counterexample :
    ([⟨1, 10, true⟩, ⟨5, 20, true⟩] : List PartEntry).filter (fun pt => pt.used) =
      [⟨1, 10, true⟩, ⟨5, 20, true⟩] ∧
    ([⟨1, 10, true⟩, ⟨5, 20, true⟩] : List PartEntry).Pairwise
      (fun a b => a.starting_lba < b.starting_lba) ∧
    partition_ranges 1 1 [⟨1, 10, true⟩, ⟨5, 20, true⟩] =
      .ok ([⟨1, 2, 10⟩, ⟨5, 12, 16⟩], ["[2, 11, native]", "[12, last, native]"]) ∧
    ¬ ([⟨1, 2, 10⟩, ⟨5, 12, 16⟩] : List Range).Pairwise Range.disjointIn :=
  ⟨by decide, by decide, by rfl, by decide⟩

/-- C3, amended: for every partition table whose used entries have
pairwise disjoint, ordered block extents (each earlier entry's ending
block lies strictly before each later entry's starting block, and each
entry's `starting ≤ ending`) and positive geometry, the produced ranges
are sorted ascending by `in_offset`, pairwise non-overlapping in
input-address space, with track-aligned and strictly increasing
`out_offset`, and the descriptor list has one entry per range in the same
order. -/
theorem c3_plan_invariants
    (bpb bpt : Nat) (entries : List PartEntry)
    (hbpb : 1 ≤ bpb) (hbpt : 1 ≤ bpt)
    (hne : entries.filter (fun pt => pt.used) ≠ [])
    (hse : ∀ pt ∈ entries.filter (fun pt => pt.used), pt.starting_lba ≤ pt.ending_lba)
    (hdisj : (entries.filter (fun pt => pt.used)).Pairwise
      (fun a b => a.ending_lba < b.starting_lba)) :
    ∃ rs ds, partition_ranges bpb bpt entries = .ok (rs, ds) ∧
      rs.Pairwise (fun a b : Range => a.in_offset ≤ b.in_offset) ∧
      rs.Pairwise Range.disjointIn ∧
      (∀ r ∈ rs, r.out_offset % (bpt * bpb) = 0) ∧
      rs.Pairwise (fun a b : Range => a.out_offset < b.out_offset) ∧
      ds.length = rs.length := by
  have hasc : (entries.filter (fun pt => pt.used)).Pairwise
      (fun a b => a.starting_lba ≤ b.starting_lba) :=
    hdisj.imp_of_mem (fun ha hb hr => by
      have := hse _ ha
      omega)
  have hequ := partition_ranges_eq bpb bpt entries hne
  have hid : sortRanges (planRanges bpb bpt (entries.filter (fun pt => pt.used)) 2) =
      planRanges bpb bpt (entries.filter (fun pt => pt.used)) 2 :=
    sortRanges_of_sorted (planRanges_sorted bpb bpt _ 2 hasc)
  refine ⟨planRanges bpb bpt (entries.filter (fun pt => pt.used)) 2,
    planDescs bpt (entries.filter (fun pt => pt.used)) 2,
    by rw [hequ, hid],
    planRanges_sorted bpb bpt _ 2 hasc,
    planRanges_pairwise_disjointIn bpb bpt _ 2 hse hdisj,
    planRanges_aligned bpb bpt _ 2,
    (planRanges_pairwise_out bpb bpt hbpb hbpt _ 2).imp (fun h => h.2),
    by rw [planRanges_length, planDescs_length]⟩

/-- Witness for C3 (amended): two disjoint ascending used partitions with
positive geometry. -/
theorem c3_plan_invariants_witness :
    ∃ rs ds, partition_ranges 512 12 [⟨34, 99, true⟩, ⟨100, 199, true⟩] = .ok (rs, ds) ∧
      rs.Pairwise (fun a b : Range => a.in_offset ≤ b.in_offset) ∧
      rs.Pairwise Range.disjointIn ∧
      (∀ r ∈ rs, r.out_offset % (12 * 512) = 0) ∧
      rs.Pairwise (fun a b : Range => a.out_offset < b.out_offset) ∧
      ds.length = rs.length :=
  c3_plan_invariants 512 12 [⟨34, 99, true⟩, ⟨100, 199, true⟩]
    (by decide) (by decide) (by decide) (by decide) (by decide)

/-- C9: a partition table in which no entry is used makes
`partition_ranges` fail with the no-partitions error, producing no ranges
and no descriptors. -/
theorem c9_no_used_partitions (bpb bpt : Nat) (entries : List PartEntry)
    (h : ∀ pt ∈ entries, pt.used = false) :
    partition_ranges bpb bpt entries = .error .noPartitions := by
  have hnil : entries.filter (fun pt => pt.used) = [] :=
    List.filter_eq_nil_iff.mpr (fun pt hpt => by simp [h pt hpt])
  unfold partition_ranges
  simp only [hnil]

/-- Witness for C9: a one-entry table whose entry is unused. -/
theorem c9_no_used_partitions_witness :
    partition_ranges 512 12 [⟨34, 99, false⟩] = .error .noPartitions :=
  c9_no_used_partitions 512 12 [⟨34, 99, false⟩] (by decide)

/-- C10: a table with exactly one used entry yields exactly one
descriptor, `"[2, last, native]"` — the `last` sentinel replaces the
computed end track regardless of the partition's size. -/
theorem c10_single_partition_last (bpb bpt : Nat) (entries : List PartEntry)
    (pt : PartEntry) (hbpb : 1 ≤ bpb) (hbpt : 1 ≤ bpt)
    (hone : entries.filter (fun pt => pt.used) = [pt]) :
    ∃ rs, partition_ranges bpb bpt entries = .ok (rs, ["[2, last, native]"]) := by
  have hequ := partition_ranges_eq bpb bpt entries (by rw [hone]; simp)
  rw [hone] at hequ
  exact ⟨_, by rw [hequ]; rfl⟩

/-- Witness for C10: one used partition of arbitrary extent. -/
theorem c10_single_partition_last_witness :
    ∃ rs, partition_ranges 512 12 [⟨34, 99, true⟩] = .ok (rs, ["[2, last, native]"]) :=
  c10_single_partition_last 512 12 [⟨34, 99, true⟩] ⟨34, 99, true⟩
    (by decide) (by decide) (by decide)

/-! ## Claim theorems: stream copy -/

theorem prod_ok_eta {α β γ : Type} (p : α × β × Option γ) (h : p.2.2 = none) :
    p = (p.1, p.2.1, none) := by
  rcases p with ⟨a, b, e⟩
  simp only at h
  rw [h]

/-- A successful `image_copy_s390x` comes from a successful copy loop; the
destination is the loop's, and the final cursor adds the drained
remainder of the stream. -/
theorem image_copy_ok_elim {len : Nat} {data : Nat → UInt8} {rs : List Range} {d : Dest}
    (h : (image_copy_s390x len data rs d).2.2 = none) :
    (copyRanges len data rs (1024 * 1024) d).2.2 = none ∧
    (image_copy_s390x len data rs d).1 = (copyRanges len data rs (1024 * 1024) d).1 ∧
    (image_copy_s390x len data rs d).2.1 =
      (copyRanges len data rs (1024 * 1024) d).2.1 +
        (len - (copyRanges len data rs (1024 * 1024) d).2.1) := by
  rcases hcr : copyRanges len data rs (1024 * 1024) d with ⟨d1, c1, e⟩
  cases e with
  | none => exact ⟨rfl, by simp [image_copy_s390x, hcr], by simp [image_copy_s390x, hcr]⟩
  | some err =>
    have hbad : (image_copy_s390x len data rs d).2.2 = some err := by
      simp [image_copy_s390x, hcr]
    rw [h] at hbad
    exact Option.noConfusion hbad

/-- C2: on successful completion of the copy over a source stream
positioned at byte 1 MiB, every range of the plan produced by
`partition_ranges` has its destination bytes `[out_offset, out_offset +
length)` equal to the source bytes `[in_offset, in_offset + length)`; the
gaps were read from the source (every range's input window lies within
the stream), and after the last range the rest of the stream is consumed,
leaving the cursor at the stream's end. -/
theorem c2_copy_guarantee (bpb bpt len : Nat) (entries : List PartEntry)
    (data : Nat → UInt8) (d : Dest) (rs : List Range) (ds : List String)
    (hbpb : 1 ≤ bpb) (hbpt : 1 ≤ bpt)
    (hplan : partition_ranges bpb bpt entries = .ok (rs, ds))
    (hlen : 1024 * 1024 ≤ len)
    (hok : (image_copy_s390x len data rs d).2.2 = none) :
    (∀ r ∈ rs, ∀ k, k < r.length →
      (image_copy_s390x len data rs d).1 (r.out_offset + k) = data (r.in_offset + k)) ∧
    (∀ r ∈ rs, r.in_offset + r.length ≤ len) ∧
    (image_copy_s390x len data rs d).2.1 = len := by
  have hdisj : rs.Pairwise Range.disjointOut := by
    cases hu : entries.filter (fun pt => pt.used) with
    | nil =>
      rw [partition_ranges] at hplan
      simp only [hu] at hplan
      exact Except.noConfusion hplan
    | cons a l =>
      have hequ := partition_ranges_eq bpb bpt entries (by rw [hu]; simp)
      rw [hplan] at hequ
      have hpair := Except.ok.inj hequ
      have hrs : rs = sortRanges
          (planRanges bpb bpt (entries.filter (fun pt => pt.used)) 2) :=
        congrArg Prod.fst hpair
      rw [hrs]
      exact sortRanges_pairwise disjointOut_symm
        ((planRanges_pairwise_out bpb bpt hbpb hbpt _ 2).imp (fun h => Or.inl h.1))
  obtain ⟨hcr2, hfst, hcur⟩ := image_copy_ok_elim hok
  have hfull := prod_ok_eta _ hcr2
  have hcorrect := copyRanges_correct len data rs (1024 * 1024) d _ _ hdisj hfull
  obtain ⟨hle, hbound⟩ := copyRanges_ok_le len data rs (1024 * 1024) d _ _ hlen hfull
  refine ⟨fun r hr k hk => ?_, hbound, by omega⟩
  rw [hfst]
  exact hcorrect r hr k hk

/-- Witness for C2: two used partitions at blocks [2048,4095] and
[4096,6143] with 512-byte blocks, 12 blocks per track, over a stream of
3 MiB + 5 bytes. -/
theorem c2_copy_guarantee_witness :
    (image_copy_s390x (3 * 1024 * 1024 + 5) (fun a => UInt8.ofNat a)
      [⟨1048576, 12288, 1048576⟩, ⟨2097152, 1062912, 1048576⟩] (fun _ => 0)).2.1 =
      3 * 1024 * 1024 + 5 ∧
    (image_copy_s390x (3 * 1024 * 1024 + 5) (fun a => UInt8.ofNat a)
      [⟨1048576, 12288, 1048576⟩, ⟨2097152, 1062912, 1048576⟩] (fun _ => 0)).1
        (12288 + 5) = UInt8.ofNat (1048576 + 5) := by
  have h := c2_copy_guarantee 512 12 (3 * 1024 * 1024 + 5)
    [⟨2048, 4095, true⟩, ⟨4096, 6143, true⟩]
    (fun a => UInt8.ofNat a) (fun _ => 0)
    [⟨1048576, 12288, 1048576⟩, ⟨2097152, 1062912, 1048576⟩]
    ["[2, 172, native]", "[173, last, native]"]
    (by decide) (by decide) (by rfl) (by decide) (by rfl)
  exact ⟨h.2.2, h.1 ⟨1048576, 12288, 1048576⟩ (by decide) 5 (by decide)⟩

/-- C4: if, after some prefix of the plan has been copied successfully,
the next range's `in_offset` lies strictly before the cursor, the copy
fails with the plan-consistency error; the destination and cursor are
exactly those after the prefix — no seek, write, or read happens for that
range or any later one. -/
theorem c4_plan_consistency_abort (len : Nat) (data : Nat → UInt8) (d : Dest)
    (pre post : List Range) (r : Range)
    (hpre : (copyRanges len data pre (1024 * 1024) d).2.2 = none)
    (hlt : r.in_offset < (copyRanges len data pre (1024 * 1024) d).2.1) :
    image_copy_s390x len data (pre ++ r :: post) d =
      ((copyRanges len data pre (1024 * 1024) d).1,
       (copyRanges len data pre (1024 * 1024) d).2.1, some .planConsistency) := by
  have hfull := prod_ok_eta _ hpre
  have happ := copyRanges_append len data pre (r :: post) (1024 * 1024) d
  rw [hfull] at happ
  simp only at happ
  rw [copyRanges_cons, if_pos hlt] at happ
  rw [image_copy_s390x, happ]

/-- Witness for C4: a second range reaching back into the first one. -/
theorem c4_plan_consistency_abort_witness :
    (copyRanges (4 * 1024 * 1024) (fun a => UInt8.ofNat a) [⟨1048576, 0, 100⟩]
      (1024 * 1024) (fun _ => 0)).2.2 = none ∧
    image_copy_s390x (4 * 1024 * 1024) (fun a => UInt8.ofNat a)
      ([⟨1048576, 0, 100⟩] ++ ⟨1048600, 512, 10⟩ :: []) (fun _ => 0) =
      ((copyRanges (4 * 1024 * 1024) (fun a => UInt8.ofNat a) [⟨1048576, 0, 100⟩]
          (1024 * 1024) (fun _ => 0)).1,
       (copyRanges (4 * 1024 * 1024) (fun a => UInt8.ofNat a) [⟨1048576, 0, 100⟩]
          (1024 * 1024) (fun _ => 0)).2.1, some .planConsistency) :=
  ⟨by rfl, c4_plan_consistency_abort (4 * 1024 * 1024) (fun a => UInt8.ofNat a)
    (fun _ => 0) [⟨1048576, 0, 100⟩] [] ⟨1048600, 512, 10⟩ (by rfl) (by decide)⟩

/-- C5: on successful completion of the copy, every destination byte
outside all written windows `[out_offset, out_offset + length)` is left
exactly as it was before the operation. -/
theorem c5_frame (len : Nat) (data : Nat → UInt8) (d : Dest) (rs : List Range)
    (hok : (image_copy_s390x len data rs d).2.2 = none) :
    ∀ a, (∀ r ∈ rs, a < r.out_offset ∨ r.out_offset + r.length ≤ a) →
      (image_copy_s390x len data rs d).1 a = d a := by
  intro a ha
  obtain ⟨_, hfst, _⟩ := image_copy_ok_elim hok
  rw [hfst]
  exact copyRanges_frame len data rs _ d a ha

/-- Witness for C5: byte 500 lies outside the single written window. -/
theorem c5_frame_witness :
    (image_copy_s390x (2 * 1024 * 1024) (fun a => UInt8.ofNat a) [⟨1048576, 0, 100⟩]
      (fun _ => 0)).1 500 = 0 :=
  c5_frame (2 * 1024 * 1024) (fun a => UInt8.ofNat a) (fun _ => 0) [⟨1048576, 0, 100⟩]
    (by rfl) 500 (by decide)

/-! ## Claim theorems: formatter -/

/-- C6: a descriptor list with more than 3 entries makes `make_partitions`
fail with the config-limit error before any external partitioning-tool
invocation — the trace is empty, so neither `try_format` nor
`default_format` ran. -/
theorem c6_config_limit (partitions : List String) (tf1 df tf2 : Bool)
    (h : partitions.length > 3) :
    make_partitions partitions tf1 df tf2 = ([], some .configLimit) := by
  simp [make_partitions, h]

/-- Witness for C6: four descriptors. -/
theorem c6_config_limit_witness :
    make_partitions ["[2, 3, native]", "[4, 5, native]", "[6, 7, native]",
      "[8, last, native]"] true true true = ([], some .configLimit) :=
  c6_config_limit _ true true true (by decide)

/-- C7, counterexample: when the first `try_format` fails and
`default_format` also fails, `make_partitions` propagates the
`default_format` failure and performs no retry of `try_format` — the
trace holds exactly one `try_format` call, refuting "if the first
tryFormat fails it performs exactly one defaultFormat followed by exactly
one retry of tryFormat". -/
theorem c7_counterexample :
    make_partitions ["[2, last, native]"] false false true =
      ([.tryFormat "[2, last, native]\n", .defaultFormat], some .toolFailure) ∧
    (make_partitions ["[2, last, native]"] false false true).1.countP
      (fun call => match call with | .tryFormat _ => true | _ => false) = 1 :=
  ⟨by rfl, by rfl⟩

/-- C7, amended: `make_partitions` on 1-3 descriptors builds the
newline-terminated config (descriptors joined by newlines, one per line,
in order) and runs `try_format`; if and only if that first `try_format`
fails it performs exactly one `default_format` and, provided the
`default_format` succeeds, exactly one retry of `try_format` with the
same config, propagating failure if the retry also fails; if the
`default_format` itself fails, that failure propagates with no retry; no
other retry or recovery occurs. -/
theorem c7_retry_once (partitions : List String) (tf1 df tf2 : Bool)
    (h1 : 1 ≤ partitions.length) (h3 : partitions.length ≤ 3) :
    (tf1 = true → make_partitions partitions tf1 df tf2 =
      ([.tryFormat (String.intercalate "\n" partitions ++ "\n")], none)) ∧
    (tf1 = false → df = true → make_partitions partitions tf1 df tf2 =
      ([.tryFormat (String.intercalate "\n" partitions ++ "\n"), .defaultFormat,
        .tryFormat (String.intercalate "\n" partitions ++ "\n")],
       if tf2 then none else some .toolFailure)) ∧
    (tf1 = false → df = false → make_partitions partitions tf1 df tf2 =
      ([.tryFormat (String.intercalate "\n" partitions ++ "\n"), .defaultFormat],
       some .toolFailure)) := by
  have hlim : ¬ partitions.length > 3 := by omega
  refine ⟨fun ht => ?_, fun ht hd => ?_, fun ht hd => ?_⟩ <;>
    subst ht <;> first
      | (subst hd; cases tf2 <;> simp [make_partitions, hlim])
      | simp [make_partitions, hlim]

/-- Witness for C7 (amended): a single descriptor, all three oracle
combinations reachable; instantiated at a succeeding first format. -/
theorem c7_retry_once_witness :
    make_partitions ["[2, last, native]"] true false false =
      ([.tryFormat (String.intercalate "\n" ["[2, last, native]"] ++ "\n")], none) :=
  (c7_retry_once ["[2, last, native]"] true false false (by decide) (by decide)).1 rfl

/-- C8: `low_level_format` on a device whose `is_formatted` check reports
true performs zero invocations of the destructive format tool and
succeeds; the tool runs exactly when the check reports false; and a
failing check propagates with the tool never invoked. -/
theorem c8_low_level_format_idempotent (statusRead : Except Unit String) (fmtOk : Bool) :
    (is_formatted statusRead = .ok true →
      low_level_format statusRead fmtOk = ([], none)) ∧
    (∀ tr e, low_level_format statusRead fmtOk = (tr, e) →
      (ToolCall.dasdfmt ∈ tr ↔ is_formatted statusRead = .ok false)) ∧
    (∀ err, is_formatted statusRead = .error err →
      low_level_format statusRead fmtOk = ([], some .checkFailed)) := by
  rcases statusRead with u | s
  · have hislf : is_formatted (.error u) = .error u := rfl
    have hl : low_level_format (.error u) fmtOk = ([], some .checkFailed) := rfl
    refine ⟨?_, ?_, ?_⟩
    · intro h
      rw [hislf] at h
      exact Except.noConfusion h
    · intro tr e h
      rw [hl] at h
      have htr : tr = [] := (congrArg Prod.fst h).symm
      subst htr
      constructor
      · intro hmem
        exact absurd hmem (by simp)
      · intro hc
        rw [hislf] at hc
        exact Except.noConfusion hc
    · intro err _
      exact hl
  · cases hb : hasSubstring "unformatted".data s.data with
    | false =>
      have hf : is_formatted (.ok s) = .ok true := by
        simp only [is_formatted, Except.map]
        rw [hb]
        rfl
      have hl : low_level_format (.ok s) fmtOk = ([], none) := by
        unfold low_level_format
        rw [hf]
      refine ⟨?_, ?_, ?_⟩
      · intro _
        exact hl
      · intro tr e h
        rw [hl] at h
        have htr : tr = [] := (congrArg Prod.fst h).symm
        subst htr
        constructor
        · intro hmem
          exact absurd hmem (by simp)
        · intro hc
          rw [hf] at hc
          exact absurd (Except.ok.inj hc) (by simp)
      · intro err h
        rw [hf] at h
        exact Except.noConfusion h
    | true =>
      have hf : is_formatted (.ok s) = .ok false := by
        simp only [is_formatted, Except.map]
        rw [hb]
        rfl
      have hl : low_level_format (.ok s) fmtOk =
          if fmtOk then ([.dasdfmt], none) else ([.dasdfmt], some .toolFailure) := by
        unfold low_level_format
        rw [hf]
      refine ⟨?_, ?_, ?_⟩
      · intro h
        rw [hf] at h
        exact absurd (Except.ok.inj h) (by simp)
      · intro tr e h
        rw [hl] at h
        have htr : tr = [.dasdfmt] := by
          cases fmtOk with
          | true => simpa using (congrArg Prod.fst h).symm
          | false => simpa using (congrArg Prod.fst h).symm
        subst htr
        simp [hf]
      · intro err h
        rw [hf] at h
        exact Except.noConfusion h

/-- Witness for C8: a status file without the "unformatted" marker, so the
check reports formatted and the tool is skipped. -/
theorem c8_low_level_format_idempotent_witness :
    low_level_format (.ok "online") true = ([], none) :=
  (c8_low_level_format_idempotent (.ok "online") true).1 (by rfl)

end Dasd
